import Mathlib

/- Verification development for the note-codes plugin core (src/main.ts):
   the path-to-code hash, the code formatter, the bidirectional
   path/code index, prefix search and exact resolution.  The external
   SHA-256 digest (crypto.subtle.digest) is modelled as a parameter
   `digest : String → List Nat` giving the byte list of the digest of
   each input string; everything else is translated from the source. -/

namespace NC

/-- Crockford-style alphabet used by JS Number.toString(32): digits 0-9 then a-v. -/
def jsBase32Alphabet : List Char := "0123456789abcdefghijklmnopqrstuv".toList

/-- Canonical 32-symbol alphabet of the plugin (no O, I, L, U). -/
def base32Alphabet : List Char := "0123456789ABCDEFGHJKMNPQRSTVWXYZ".toList

def ALPHABET_LENGTH : Nat := base32Alphabet.length

/-- Substitution built by Object.fromEntries(zip) in the source: the i-th
character of jsBase32Alphabet goes to the i-th character of base32Alphabet.
A character outside jsBase32Alphabet would be JS undefined; the placeholder
never occurs on the inputs the source feeds it. -/
def jsBase32Mapping (c : Char) : Char :=
  match jsBase32Alphabet.findIdx? (fun x => x == c) with
  | some i => base32Alphabet.getD i '?'
  | none => '?'

/-- Look-alike normalization table of the source (base32Mapping). -/
def base32Mapping (c : Char) : Option Char :=
  if c = 'O' then some '0'
  else if c = 'L' then some '1'
  else if c = 'I' then some '1'
  else if c = 'U' then some 'V'
  else none

/-- Fuel-driven core of base-32 rendering (most significant digit first, no
leading zeros, 0 renders as [0]); fuel n+1 always suffices for n. -/
def base32DigitsCore : Nat → Nat → List Nat → List Nat
  | 0, _, acc => acc
  | fuel + 1, n, acc =>
    if n / 32 = 0 then n % 32 :: acc
    else base32DigitsCore fuel (n / 32) (n % 32 :: acc)

def base32Digits (n : Nat) : List Nat := base32DigitsCore (n + 1) n []

/-- Number.prototype.toString(32): digit characters drawn from 0-9a-v. -/
def toStringBase32 (n : Nat) : List Char :=
  (base32Digits n).map (fun d => jsBase32Alphabet.getD d '?')

/-- String.prototype.padStart(4, "0") at the character-list level. -/
def padStart4Chars (l : List Char) : List Char :=
  List.replicate (4 - l.length) '0' ++ l

/-- Packing of the first three digest bytes and reduction mod 32^4, exactly
as written in the source: ((bytes[0] << 16) | (bytes[1] << 8) | (bytes[2] << 0)) % ALPHABET_LENGTH ** 4. -/
def hashNum (digest : String → List Nat) (s : String) : Nat :=
  let bytes := digest s
  (bytes.getD 0 0 <<< 16 ||| bytes.getD 1 0 <<< 8 ||| bytes.getD 2 0) % ALPHABET_LENGTH ^ 4

/-- The four code characters: render, pad, translate into the canonical alphabet. -/
def hashCodeChars (digest : String → List Nat) (s : String) : List Char :=
  (padStart4Chars (toStringBase32 (hashNum digest s))).map jsBase32Mapping

/-- hashString from src/main.ts, with the external SHA-256 digest as a parameter. -/
def hashString (digest : String → List Nat) (s : String) : String :=
  match hashCodeChars digest s with
  | [a, b, c, d] => String.mk [a, b, '-', c, d]
  | _ => ""

/-- Symbol pipeline of formatHash: upper-case each character (JS
toUpperCase, modelled per character), substitute look-alikes with the
?? fallback, keep only canonical-alphabet characters, slice(0, 4). -/
def formatCore (l : List Char) : List Char :=
  (((l.map Char.toUpper).map (fun c => (base32Mapping c).getD c)).filter
    (fun c => base32Alphabet.contains c)).take 4

/-- formatHash from src/main.ts: normalize, then insert the separator after
the 2nd character when more than 2 remain. -/
def formatHash (hash : String) : String :=
  let l := formatCore hash.toList
  if 2 < l.length then String.mk (l.take 2) ++ "-" ++ String.mk (l.drop 2)
  else String.mk l

/-- Spec-side rendering of the hash (§4.1, for claim C2): pack the first
three digest bytes big-endian into a 24-bit integer, reduce modulo 32^4,
render in base 32 zero-padded to 4 digits, translate each digit through the
one-to-one substitution into the canonical alphabet, and insert the
separator after the 2nd character. -/
def hashStringSpec (digest : String → List Nat) (s : String) : String :=
  let bytes := digest s
  let packed := bytes.getD 0 0 * 2 ^ 16 + bytes.getD 1 0 * 2 ^ 8 + bytes.getD 2 0
  let translated := (padStart4Chars (toStringBase32 (packed % 32 ^ 4))).map jsBase32Mapping
  String.mk (translated.take 2) ++ "-" ++ String.mk (translated.drop 2)

/-- Insertion-ordered association list modelling a JS Map with string keys. -/
abbrev JMap := List (String × String)

/-- Map.prototype.get. -/
def jget : JMap → String → Option String
  | [], _ => none
  | (k, v) :: rest, k2 => if k = k2 then some v else jget rest k2

def hasKey : JMap → String → Bool
  | [], _ => false
  | (k, _) :: rest, k2 => k == k2 || hasKey rest k2

/-- Map.prototype.set: an existing key keeps its position and receives the
new value; a new key is appended at the end. -/
def jset (m : JMap) (k v : String) : JMap :=
  if hasKey m k then m.map (fun e => if e.1 = k then (k, v) else e)
  else m ++ [(k, v)]

/-- Map.prototype.delete. -/
def jdelete : JMap → String → JMap
  | [], _ => []
  | (k, v) :: rest, k2 => if k = k2 then jdelete rest k2 else (k, v) :: jdelete rest k2

/-- The two maps held by the NoteCodes plugin object. -/
structure NoteCodes where
  hashesToPaths : JMap
  pathsToHashes : JMap
deriving DecidableEq

def emptyIndex : NoteCodes := ⟨[], []⟩

/-- NoteCodes.addPath: hash the path and set both mappings, returning the code. -/
def addPath (digest : String → List Nat) (nc : NoteCodes) (path : String) :
    String × NoteCodes :=
  let hash := hashString digest path
  (hash, { hashesToPaths := jset nc.hashesToPaths hash path,
           pathsToHashes := jset nc.pathsToHashes path hash })

/-- NoteCodes.removePath: the source guard `if (hash)` is JS truthiness,
false for undefined and for the empty string. -/
def removePath (nc : NoteCodes) (path : String) : NoteCodes :=
  match jget nc.pathsToHashes path with
  | none => nc
  | some hash =>
    if hash = "" then nc
    else { hashesToPaths := jdelete nc.hashesToPaths hash,
           pathsToHashes := jdelete nc.pathsToHashes path }

/-- NoteCodes.getHashForPath: return the known (truthy) code, else addPath. -/
def getHashForPath (digest : String → List Nat) (nc : NoteCodes) (path : String) :
    String × NoteCodes :=
  match jget nc.pathsToHashes path with
  | none => addPath digest nc path
  | some hash => if hash = "" then addPath digest nc path else (hash, nc)

/-- Suggestion entry type from the source. -/
structure Entry where
  hash : String
  path : String
deriving DecidableEq

/-- JS String.prototype.startsWith, at the character-list level. -/
def strStartsWith (s q : String) : Bool := q.toList.isPrefixOf s.toList

/-- NCSuggestModal.getSuggestions: format the query, then collect the
code→path entries whose code starts with it, in map iteration order. -/
def getSuggestions (nc : NoteCodes) (query : String) : List Entry :=
  let q := formatHash query
  (nc.hashesToPaths.filter (fun e => strStartsWith e.1 q)).map
    (fun e => { hash := e.1, path := e.2 })

/-- NoteCodes.openNoteForHash, reduced to its index core: the path it would
open, or none exactly when the "No such note code" notice is shown.  The
source method never writes to either map, so it is a pure function of the
state; `if (!path)` is JS truthiness again. -/
def openNoteForHash (nc : NoteCodes) (hash : String) : Option String :=
  match jget nc.hashesToPaths (formatHash hash) with
  | none => none
  | some path => if path = "" then none else some path

/-- Index states reachable from the empty index by addPath/removePath. -/
inductive Reachable (digest : String → List Nat) : NoteCodes → Prop where
  | empty : Reachable digest emptyIndex
  | add (nc : NoteCodes) (p : String) : Reachable digest nc →
      Reachable digest (addPath digest nc p).2
  | remove (nc : NoteCodes) (p : String) : Reachable digest nc →
      Reachable digest (removePath nc p)

/-- Digest stub for concrete inputs: every path digests to bytes 0,0,0, so
every path gets code "00-00" and any two distinct paths collide. -/
def digest0 : String → List Nat := fun _ => [0, 0, 0]

/-- State with the single tracked path "a". -/
def demoA : NoteCodes := (addPath digest0 emptyIndex "a").2

/-- Fixture from §8: three code→path entries in insertion order. -/
def searchDemo : NoteCodes :=
  { hashesToPaths := [("AB-CD", "x"), ("AB-EF", "y"), ("GH-IJ", "z")],
    pathsToHashes := [("x", "AB-CD"), ("y", "AB-EF"), ("z", "GH-IJ")] }

/-- Key list of a JMap, in insertion order. -/
def keys (m : JMap) : List String := m.map Prod.fst

/-- Invariant of reachable index states: every path→code entry carries the
path's own hash, every code→path entry points at a path that is tracked
under exactly that code, and both maps have pairwise distinct keys (as any
JS Map does). -/
structure Inv (digest : String → List Nat) (nc : NoteCodes) : Prop where
  p2h_hash : ∀ e ∈ nc.pathsToHashes, e.2 = hashString digest e.1
  h2p_sound : ∀ e ∈ nc.hashesToPaths, jget nc.pathsToHashes e.2 = some e.1
  p2h_nodup : (keys nc.pathsToHashes).Nodup
  h2p_nodup : (keys nc.hashesToPaths).Nodup

/-- Every digit the rendering core produces is a base-32 digit. -/
theorem base32DigitsCore_lt (fuel : Nat) : ∀ n acc, (∀ d ∈ acc, d < 32) →
    ∀ d ∈ base32DigitsCore fuel n acc, d < 32 := by
  induction fuel with
  | zero => intro n acc hacc d hd; exact hacc d hd
  | succ fuel ih =>
    intro n acc hacc d hd
    simp only [base32DigitsCore] at hd
    by_cases h : n / 32 = 0
    · rw [if_pos h] at hd
      rcases List.mem_cons.mp hd with h1 | h1
      · subst h1; exact Nat.mod_lt _ (by norm_num)
      · exact hacc d h1
    · rw [if_neg h] at hd
      refine ih (n / 32) _ ?_ d hd
      intro e he
      rcases List.mem_cons.mp he with h1 | h1
      · subst h1; exact Nat.mod_lt _ (by norm_num)
      · exact hacc e h1

/-- Rendering n < 32^k takes at most k digits (k positive, enough fuel). -/
theorem base32DigitsCore_length (fuel : Nat) : ∀ n acc k, n < fuel → n < 32 ^ k → 0 < k →
    (base32DigitsCore fuel n acc).length ≤ k + acc.length := by
  induction fuel with
  | zero => intro n acc k hn; omega
  | succ fuel ih =>
    intro n acc k hn hk hkpos
    simp only [base32DigitsCore]
    by_cases h : n / 32 = 0
    · rw [if_pos h]; simp; omega
    · rw [if_neg h]
      have hnpos : 0 < n := by
        rcases Nat.eq_zero_or_pos n with h0 | h0
        · exfalso; apply h; rw [h0]
        · exact h0
      have hdiv : n / 32 < n := Nat.div_lt_self hnpos (by norm_num)
      have hk2 : 2 ≤ k := by
        by_contra hcon
        have hk1 : k = 1 := by omega
        rw [hk1, pow_one] at hk
        exact h (Nat.div_eq_of_lt hk)
      have hpow : 32 ^ (k - 1) * 32 = 32 ^ k := by
        rw [← pow_succ]
        congr 1
        omega
      have hlt : n / 32 < 32 ^ (k - 1) := Nat.div_lt_of_lt_mul (by omega)
      have := ih (n / 32) (n % 32 :: acc) (k - 1) (by omega) hlt (by omega)
      simp only [List.length_cons] at this
      omega

theorem base32Digits_lt (n : Nat) : ∀ d ∈ base32Digits n, d < 32 :=
  base32DigitsCore_lt (n + 1) n [] (by simp)

theorem base32Digits_length {n k : Nat} (hk : n < 32 ^ k) (hkpos : 0 < k) :
    (base32Digits n).length ≤ k := by
  have := base32DigitsCore_length (n + 1) n [] k (Nat.lt_succ_self n) hk hkpos
  simpa using this

theorem toStringBase32_mem {n : Nat} : ∀ c ∈ toStringBase32 n, c ∈ jsBase32Alphabet := by
  intro c hc
  simp only [toStringBase32, List.mem_map] at hc
  obtain ⟨d, hd, rfl⟩ := hc
  have hlt := base32Digits_lt n d hd
  have key : ∀ e, e < 32 → jsBase32Alphabet.getD e '?' ∈ jsBase32Alphabet := by decide
  exact key d hlt

theorem toStringBase32_length_le {n : Nat} (h : n < 32 ^ 4) :
    (toStringBase32 n).length ≤ 4 := by
  simp only [toStringBase32, List.length_map]
  exact base32Digits_length h (by norm_num)

theorem padStart4Chars_length {l : List Char} (h : l.length ≤ 4) :
    (padStart4Chars l).length = 4 := by
  simp only [padStart4Chars, List.length_append, List.length_replicate]
  omega

theorem padStart4Chars_mem {l : List Char} (hl : ∀ c ∈ l, c ∈ jsBase32Alphabet) :
    ∀ c ∈ padStart4Chars l, c ∈ jsBase32Alphabet := by
  intro c hc
  rcases List.mem_append.mp hc with h | h
  · rw [List.eq_of_mem_replicate h]; decide
  · exact hl c h

theorem hashNum_lt (digest : String → List Nat) (s : String) :
    hashNum digest s < 32 ^ 4 := by
  have halpha : ALPHABET_LENGTH = 32 := rfl
  simp only [hashNum, halpha]
  exact Nat.mod_lt _ (by norm_num)

theorem jsBase32Mapping_mem : ∀ c ∈ jsBase32Alphabet, jsBase32Mapping c ∈ base32Alphabet := by
  decide

theorem hashCodeChars_length (digest : String → List Nat) (s : String) :
    (hashCodeChars digest s).length = 4 := by
  simp only [hashCodeChars, List.length_map]
  exact padStart4Chars_length (toStringBase32_length_le (hashNum_lt digest s))

theorem hashCodeChars_mem (digest : String → List Nat) (s : String) :
    ∀ c ∈ hashCodeChars digest s, c ∈ base32Alphabet := by
  intro c hc
  simp only [hashCodeChars, List.mem_map] at hc
  obtain ⟨x, hx, rfl⟩ := hc
  exact jsBase32Mapping_mem x (padStart4Chars_mem (fun e he => toStringBase32_mem e he) x hx)

/-- Structural form of every hash code: two canonical symbols, the separator,
two canonical symbols. -/
theorem hashString_chars (digest : String → List Nat) (s : String) :
    ∃ a b c d, hashCodeChars digest s = [a, b, c, d] ∧
      hashString digest s = String.mk [a, b, '-', c, d] ∧
      a ∈ base32Alphabet ∧ b ∈ base32Alphabet ∧ c ∈ base32Alphabet ∧ d ∈ base32Alphabet := by
  have hlen := hashCodeChars_length digest s
  have hmem := hashCodeChars_mem digest s
  rcases hl : hashCodeChars digest s with _ | ⟨a, _ | ⟨b, _ | ⟨c, _ | ⟨d, _ | e⟩⟩⟩⟩ <;>
      rw [hl] at hlen <;> simp at hlen
  rw [hl] at hmem
  refine ⟨a, b, c, d, rfl, ?_, ?_, ?_, ?_, ?_⟩
  · simp [hashString, hl]
  · exact hmem a (by simp)
  · exact hmem b (by simp)
  · exact hmem c (by simp)
  · exact hmem d (by simp)

theorem hashString_length (digest : String → List Nat) (s : String) :
    (hashString digest s).length = 5 := by
  obtain ⟨a, b, c, d, _, hstr, _⟩ := hashString_chars digest s
  rw [hstr]
  rfl

theorem hashString_ne_empty (digest : String → List Nat) (s : String) :
    hashString digest s ≠ "" := by
  intro h
  have := hashString_length digest s
  rw [h] at this
  simp at this

/-- C8: for every string, the hash code has length exactly 5, carries the
separator at index 2, and every other character lies in the canonical
32-symbol alphabet. -/
theorem claim8_hash_shape (digest : String → List Nat) (s : String) :
    (hashString digest s).length = 5 ∧
    (hashString digest s).toList.getD 2 'A' = '-' ∧
    ∀ i, i < 5 → i ≠ 2 → (hashString digest s).toList.getD i '-' ∈ base32Alphabet := by
  obtain ⟨a, b, c, d, _, hstr, ha, hb, hc, hd⟩ := hashString_chars digest s
  rw [hstr]
  refine ⟨rfl, rfl, ?_⟩
  intro i h5 h2
  interval_cases i <;> simp_all

theorem map_fix {α : Type} {f : α → α} :
    ∀ {l : List α}, (∀ a ∈ l, f a = a) → l.map f = l := by
  intro l
  induction l with
  | nil => intro _; rfl
  | cons x xs ih =>
    intro h
    simp only [List.map_cons]
    rw [h x (by simp), ih (fun a ha => h a (by simp [ha]))]

theorem alpha_toUpper : ∀ c ∈ base32Alphabet, Char.toUpper c = c := by decide

theorem alpha_norm : ∀ c ∈ base32Alphabet, base32Mapping c = none := by decide

theorem formatCore_mem (l : List Char) : ∀ c ∈ formatCore l, c ∈ base32Alphabet := by
  intro c hc
  have h1 := List.mem_of_mem_take hc
  have h2 := (List.mem_filter.mp h1).2
  simpa using h2

theorem formatCore_length_le (l : List Char) : (formatCore l).length ≤ 4 := by
  simp only [formatCore, List.length_take]
  exact min_le_left _ _

/-- Running the format pipeline over canonical symbols with one separator
between them strips the separator and keeps the symbols. -/
theorem formatCore_canonical_sep (t u : List Char)
    (ht : ∀ c ∈ t, c ∈ base32Alphabet) (hu : ∀ c ∈ u, c ∈ base32Alphabet)
    (hlen : t.length + u.length ≤ 4) :
    formatCore (t ++ '-' :: u) = t ++ u := by
  have fixchar : ∀ c ∈ t ++ '-' :: u, Char.toUpper c = c := by
    intro c hc
    rcases List.mem_append.mp hc with h | h
    · exact alpha_toUpper c (ht c h)
    · rcases List.mem_cons.mp h with h | h
      · rw [h]; decide
      · exact alpha_toUpper c (hu c h)
  have fixnorm : ∀ c ∈ t ++ '-' :: u, (base32Mapping c).getD c = c := by
    intro c hc
    rcases List.mem_append.mp hc with h | h
    · rw [alpha_norm c (ht c h)]; rfl
    · rcases List.mem_cons.mp h with h | h
      · rw [h]; decide
      · rw [alpha_norm c (hu c h)]; rfl
  simp only [formatCore]
  rw [map_fix fixchar, map_fix fixnorm, List.filter_append,
    List.filter_eq_self.mpr (fun a ha => by simpa using ht a ha),
    List.filter_cons_of_neg (by decide),
    List.filter_eq_self.mpr (fun a ha => by simpa using hu a ha)]
  exact List.take_of_length_le (by simp; omega)

/-- A list of at most four canonical symbols is fixed by the pipeline. -/
theorem formatCore_canonical (l : List Char) (hl : ∀ c ∈ l, c ∈ base32Alphabet)
    (hlen : l.length ≤ 4) : formatCore l = l := by
  simp only [formatCore]
  rw [map_fix (fun c hc => alpha_toUpper c (hl c hc)),
    map_fix (fun c hc => by rw [alpha_norm c (hl c hc)]; rfl),
    List.filter_eq_self.mpr (fun a ha => by simpa using hl a ha)]
  exact List.take_of_length_le hlen

theorem dash_mk : ("-" : String) = String.mk ['-'] := rfl

theorem mk_append (a b : List Char) :
    String.mk a ++ String.mk b = String.mk (a ++ b) := rfl

theorem toList_mk (l : List Char) : (String.mk l).toList = l := rfl

theorem formatHash_unfold (x : String) :
    formatHash x = if 2 < (formatCore x.toList).length
      then String.mk ((formatCore x.toList).take 2 ++ '-' :: (formatCore x.toList).drop 2)
      else String.mk (formatCore x.toList) := by
  simp only [formatHash]
  by_cases h : 2 < (formatCore x.toList).length
  · rw [if_pos h, if_pos h, dash_mk, mk_append, mk_append]
    congr 1
    simp
  · rw [if_neg h, if_neg h]

theorem formatCore_formatHash (s : String) :
    formatCore (formatHash s).toList = formatCore s.toList := by
  have hmem := formatCore_mem s.toList
  have hlen := formatCore_length_le s.toList
  rw [formatHash_unfold s]
  by_cases h : 2 < (formatCore s.toList).length
  · rw [if_pos h, toList_mk]
    have ht : ∀ c ∈ (formatCore s.toList).take 2, c ∈ base32Alphabet :=
      fun c hc => hmem c (List.mem_of_mem_take hc)
    have hu : ∀ c ∈ (formatCore s.toList).drop 2, c ∈ base32Alphabet :=
      fun c hc => hmem c (List.mem_of_mem_drop hc)
    have hsum : ((formatCore s.toList).take 2).length + ((formatCore s.toList).drop 2).length ≤ 4 := by
      have := List.take_append_drop 2 (formatCore s.toList)
      have h2 : ((formatCore s.toList).take 2 ++ (formatCore s.toList).drop 2).length
          = (formatCore s.toList).length := by rw [this]
      simp only [List.length_append] at h2
      omega
    rw [formatCore_canonical_sep _ _ ht hu hsum]
    exact List.take_append_drop 2 _
  · rw [if_neg h, toList_mk]
    exact formatCore_canonical _ hmem hlen

/-- C4: the formatter is idempotent: formatHash (formatHash s) = formatHash s
for every string s. -/
theorem claim4_formatHash_idem (s : String) :
    formatHash (formatHash s) = formatHash s := by
  rw [formatHash_unfold (formatHash s), formatCore_formatHash s, ← formatHash_unfold s]

/-- C9 (counterexample): formatHash "o1i u" is not "0-11V" as the claim
states; the separator goes after the 2nd canonical symbol. -/
theorem claim9_counterexample : ¬ formatHash "o1i u" = "0-11V" := by decide

/-- C9 (amended): formatHash "o1i u" upper-cases, substitutes O→0, I→1 (and
L→1, U→V), strips the space, and yields "01-1V" with the separator after the
2nd of the four canonical symbols. -/
theorem claim9_format_example :
    formatHash "o1i u" = "01-1V" ∧ formatHash "O" = "0" ∧ formatHash "L" = "1" ∧
    formatHash "I" = "1" ∧ formatHash "U" = "V" := by decide

/-- C10: every generated code is a fixed point of the formatter, so a
copy-pasted full code canonicalizes to itself before lookup. -/
theorem claim10_roundtrip (digest : String → List Nat) (s : String) :
    formatHash (hashString digest s) = hashString digest s := by
  obtain ⟨a, b, c, d, _, hstr, ha, hb, hc, hd⟩ := hashString_chars digest s
  rw [hstr, formatHash_unfold]
  have htl : (String.mk [a, b, '-', c, d]).toList = [a, b] ++ '-' :: [c, d] := rfl
  rw [htl, formatCore_canonical_sep [a, b] [c, d]
    (by intro e he; simp only [List.mem_cons] at he
        rcases he with rfl | rfl | h
        · exact ha
        · exact hb
        · simp at h)
    (by intro e he; simp only [List.mem_cons] at he
        rcases he with rfl | rfl | h
        · exact hc
        · exact hd
        · simp at h)
    (by simp)]
  simp

/-- Bitwise or of a shifted value with a small value is addition. -/
theorem lor_shiftLeft_add {a b n : Nat} (hb : b < 2 ^ n) :
    a <<< n ||| b = a * 2 ^ n + b := by
  apply Nat.eq_of_testBit_eq
  intro i
  rw [Nat.testBit_lor, Nat.testBit_shiftLeft]
  have hadd := Nat.testBit_mul_pow_two_add a hb i
  rw [Nat.mul_comm] at hadd
  rw [hadd]
  by_cases h : i < n
  · have hnge : ¬ i ≥ n := by omega
    simp [h, hnge]
  · have hge : i ≥ n := by omega
    have hbf : b.testBit i = false :=
      Nat.testBit_lt_two_pow (lt_of_lt_of_le hb (Nat.pow_le_pow_right (by norm_num) hge))
    simp [h, hge, hbf]

/-- JS (b0 << 16) | (b1 << 8) | b2 on bytes is big-endian packing. -/
theorem bytes_pack {b0 b1 b2 : Nat} (h1 : b1 < 256) (h2 : b2 < 256) :
    b0 <<< 16 ||| b1 <<< 8 ||| b2 = b0 * 2 ^ 16 + b1 * 2 ^ 8 + b2 := by
  have e1 : b1 <<< 8 < 2 ^ 16 := by
    rw [Nat.shiftLeft_eq]
    calc b1 * 2 ^ 8 < 256 * 2 ^ 8 := by
          exact Nat.mul_lt_mul_of_lt_of_le h1 (le_refl _) (by norm_num)
      _ = 2 ^ 16 := by norm_num
  have s1 : b0 <<< 16 ||| b1 <<< 8 = b0 * 2 ^ 16 + b1 <<< 8 := lor_shiftLeft_add e1
  have s2 : b0 * 2 ^ 16 + b1 <<< 8 = (b0 * 2 ^ 8 + b1) <<< 8 := by
    rw [Nat.shiftLeft_eq, Nat.shiftLeft_eq]
    ring
  have h2' : b2 < 2 ^ 8 := by norm_num at h2 ⊢; exact h2
  rw [s1, s2, lor_shiftLeft_add h2']
  ring

theorem getD_lt {l : List Nat} (hb : ∀ x ∈ l, x < 256) (i : Nat) : l.getD i 0 < 256 := by
  induction l generalizing i with
  | nil => simp [List.getD]
  | cons x xs ih =>
    cases i with
    | zero => rw [List.getD_cons_zero]; exact hb x (by simp)
    | succ j => rw [List.getD_cons_succ]; exact ih (fun y hy => hb y (by simp [hy])) j

/-- C2: for a digest of bytes (each < 256, at least three of them),
hashString computes exactly the spec pipeline: pack the first three bytes
big-endian into 24 bits, reduce mod 32^4, render base 32 zero-padded to 4
digits, translate into the canonical alphabet, separator after the 2nd
character. -/
theorem claim2_hash_refines_spec (digest : String → List Nat) (s : String)
    (hbytes : ∀ b ∈ digest s, b < 256) (_hlen3 : 3 ≤ (digest s).length) :
    hashString digest s = hashStringSpec digest s := by
  have hb1 := getD_lt hbytes 1
  have hb2 := getD_lt hbytes 2
  have halpha : ALPHABET_LENGTH = 32 := rfl
  have hnum2 : ((digest s).getD 0 0 * 2 ^ 16 + (digest s).getD 1 0 * 2 ^ 8 +
      (digest s).getD 2 0) % 32 ^ 4 = hashNum digest s := by
    simp only [hashNum, halpha]
    rw [bytes_pack hb1 hb2]
  obtain ⟨a, b, c, d, hchars, hstr, _, _, _, _⟩ := hashString_chars digest s
  simp only [hashCodeChars] at hchars
  rw [hstr]
  simp only [hashStringSpec]
  rw [hnum2, hchars, dash_mk, mk_append, mk_append]
  congr 1

/-- C2 witness: the refinement instantiated at the digest stub and "x". -/
theorem claim2_witness :
    (∀ b ∈ digest0 "x", b < 256) ∧ 3 ≤ (digest0 "x").length ∧
    hashString digest0 "x" = hashStringSpec digest0 "x" :=
  ⟨by decide, by decide, claim2_hash_refines_spec digest0 "x" (by decide) (by decide)⟩

theorem jget_mem {m : JMap} {k v : String} (h : jget m k = some v) : (k, v) ∈ m := by
  induction m with
  | nil => simp [jget] at h
  | cons e rest ih =>
    obtain ⟨k0, v0⟩ := e
    simp only [jget] at h
    by_cases hk : k0 = k
    · rw [if_pos hk] at h
      injection h with h
      subst hk
      subst h
      exact List.mem_cons_self _ _
    · rw [if_neg hk] at h
      exact List.mem_cons_of_mem _ (ih h)

theorem jget_hasKey {m : JMap} {k v : String} (h : jget m k = some v) :
    hasKey m k = true := by
  induction m with
  | nil => simp [jget] at h
  | cons e rest ih =>
    obtain ⟨k0, v0⟩ := e
    simp only [jget] at h
    simp only [hasKey, Bool.or_eq_true, beq_iff_eq]
    by_cases hk : k0 = k
    · exact Or.inl hk
    · rw [if_neg hk] at h
      exact Or.inr (ih h)

theorem hasKey_of_mem {m : JMap} {e : String × String} (h : e ∈ m) :
    hasKey m e.1 = true := by
  induction m with
  | nil => simp at h
  | cons f rest ih =>
    obtain ⟨k0, v0⟩ := f
    simp only [hasKey, Bool.or_eq_true, beq_iff_eq]
    rcases List.mem_cons.mp h with h1 | h1
    · subst h1; exact Or.inl rfl
    · exact Or.inr (ih h1)

theorem jget_map_set {m : JMap} {k v : String} (h : hasKey m k = true) :
    jget (m.map (fun e => if e.1 = k then (k, v) else e)) k = some v := by
  induction m with
  | nil => simp [hasKey] at h
  | cons e rest ih =>
    obtain ⟨k0, v0⟩ := e
    simp only [hasKey, Bool.or_eq_true, beq_iff_eq] at h
    simp only [List.map_cons]
    by_cases hk : k0 = k
    · subst hk
      rw [if_pos (show ((k0, v0) : String × String).1 = k0 from rfl)]
      simp [jget]
    · rw [if_neg (by simpa using hk)]
      simp only [jget]
      rw [if_neg hk]
      rcases h with h | h
      · exact absurd h hk
      · exact ih h

theorem jget_append_single {m : JMap} {k : String} (v : String)
    (h : hasKey m k = false) : jget (m ++ [(k, v)]) k = some v := by
  induction m with
  | nil => simp [jget]
  | cons e rest ih =>
    obtain ⟨k0, v0⟩ := e
    simp only [hasKey, Bool.or_eq_false_iff, beq_eq_false_iff_ne, ne_eq] at h
    simp only [List.cons_append, jget]
    rw [if_neg h.1]
    exact ih h.2

theorem jget_jset_self (m : JMap) (k v : String) : jget (jset m k v) k = some v := by
  simp only [jset]
  by_cases h : hasKey m k = true
  · rw [if_pos h]
    exact jget_map_set h
  · rw [if_neg h]
    exact jget_append_single v (by simpa using h)

theorem jget_map_set_ne {m : JMap} {k k2 v : String} (hne : k2 ≠ k) :
    jget (m.map (fun e => if e.1 = k then (k, v) else e)) k2 = jget m k2 := by
  induction m with
  | nil => rfl
  | cons e rest ih =>
    obtain ⟨k0, v0⟩ := e
    simp only [List.map_cons]
    by_cases hk : k0 = k
    · rw [if_pos (by simpa using hk)]
      simp only [jget]
      rw [if_neg (show ¬ k = k2 from fun hc => hne hc.symm)]
      rw [if_neg (show ¬ k0 = k2 from fun hc => hne (hc.symm.trans hk))]
      exact ih
    · rw [if_neg (by simpa using hk)]
      simp only [jget]
      by_cases hk2 : k0 = k2
      · rw [if_pos hk2, if_pos hk2]
      · rw [if_neg hk2, if_neg hk2]
        exact ih

theorem jget_append_single_ne {m : JMap} {k k2 : String} (v : String) (hne : k2 ≠ k) :
    jget (m ++ [(k, v)]) k2 = jget m k2 := by
  induction m with
  | nil =>
    simp only [List.nil_append, jget]
    rw [if_neg (show ¬ k = k2 from fun hc => hne hc.symm)]
  | cons e rest ih =>
    obtain ⟨k0, v0⟩ := e
    simp only [List.cons_append, jget]
    by_cases hk2 : k0 = k2
    · rw [if_pos hk2, if_pos hk2]
    · rw [if_neg hk2, if_neg hk2]
      exact ih

theorem jget_jset_ne {m : JMap} {k k2 v : String} (hne : k2 ≠ k) :
    jget (jset m k v) k2 = jget m k2 := by
  simp only [jset]
  by_cases h : hasKey m k = true
  · rw [if_pos h]
    exact jget_map_set_ne hne
  · rw [if_neg h]
    exact jget_append_single_ne v hne

theorem jget_jdelete_self (m : JMap) (k : String) : jget (jdelete m k) k = none := by
  induction m with
  | nil => rfl
  | cons e rest ih =>
    obtain ⟨k0, v0⟩ := e
    simp only [jdelete]
    by_cases hk : k0 = k
    · rw [if_pos hk]
      exact ih
    · rw [if_neg hk]
      simp only [jget]
      rw [if_neg hk]
      exact ih

theorem jget_jdelete_ne {m : JMap} {k k2 : String} (hne : k2 ≠ k) :
    jget (jdelete m k) k2 = jget m k2 := by
  induction m with
  | nil => rfl
  | cons e rest ih =>
    obtain ⟨k0, v0⟩ := e
    simp only [jdelete]
    by_cases hk : k0 = k
    · rw [if_pos hk, ih]
      simp only [jget]
      rw [if_neg (show ¬ k0 = k2 from fun hc => hne (hc.symm.trans hk))]
    · rw [if_neg hk]
      simp only [jget]
      by_cases hk2 : k0 = k2
      · rw [if_pos hk2, if_pos hk2]
      · rw [if_neg hk2, if_neg hk2]
        exact ih

theorem mem_jdelete {m : JMap} {k : String} {e : String × String}
    (h : e ∈ jdelete m k) : e ∈ m ∧ e.1 ≠ k := by
  induction m with
  | nil => simp [jdelete] at h
  | cons f rest ih =>
    obtain ⟨k0, v0⟩ := f
    simp only [jdelete] at h
    by_cases hk : k0 = k
    · rw [if_pos hk] at h
      obtain ⟨h1, h2⟩ := ih h
      exact ⟨List.mem_cons_of_mem _ h1, h2⟩
    · rw [if_neg hk] at h
      rcases List.mem_cons.mp h with h1 | h1
      · subst h1
        exact ⟨List.mem_cons_self _ _, hk⟩
      · obtain ⟨ha, hb⟩ := ih h1
        exact ⟨List.mem_cons_of_mem _ ha, hb⟩

theorem mem_jset {m : JMap} {k v : String} {e : String × String}
    (h : e ∈ jset m k v) : e = (k, v) ∨ (e ∈ m ∧ e.1 ≠ k) := by
  simp only [jset] at h
  by_cases hh : hasKey m k = true
  · rw [if_pos hh] at h
    obtain ⟨f, hf, he⟩ := List.mem_map.mp h
    by_cases hfk : f.1 = k
    · rw [if_pos hfk] at he
      exact Or.inl he.symm
    · rw [if_neg hfk] at he
      subst he
      exact Or.inr ⟨hf, hfk⟩
  · rw [if_neg hh] at h
    rcases List.mem_append.mp h with h1 | h1
    · refine Or.inr ⟨h1, fun hek => ?_⟩
      have := hasKey_of_mem h1
      rw [hek] at this
      exact absurd this (by simpa using hh)
    · simp only [List.mem_singleton] at h1
      exact Or.inl h1

theorem map_congr {α β : Type} {f g : α → β} :
    ∀ {l : List α}, (∀ a ∈ l, f a = g a) → l.map f = l.map g := by
  intro l
  induction l with
  | nil => intro _; rfl
  | cons x xs ih =>
    intro h
    simp only [List.map_cons]
    rw [h x (by simp), ih (fun a ha => h a (by simp [ha]))]

theorem keys_jset_of_hasKey {m : JMap} {k v : String} (h : hasKey m k = true) :
    keys (jset m k v) = keys m := by
  simp only [jset, if_pos h, keys, List.map_map]
  apply map_congr
  intro e _
  by_cases hfk : e.1 = k
  · simp [Function.comp, hfk]
  · simp [Function.comp, hfk]

theorem keys_jset_of_not {m : JMap} {k : String} (v : String) (h : hasKey m k = false) :
    keys (jset m k v) = keys m ++ [k] := by
  simp [jset, h, keys]

theorem hasKey_iff_mem_keys {m : JMap} {k : String} :
    hasKey m k = true ↔ k ∈ keys m := by
  induction m with
  | nil => simp [hasKey, keys]
  | cons e rest ih =>
    obtain ⟨k0, v0⟩ := e
    simp only [hasKey, Bool.or_eq_true, beq_iff_eq, keys, List.map_cons, List.mem_cons]
    rw [show (List.map Prod.fst rest : List String) = keys rest from rfl, ← ih]
    constructor
    · rintro (h | h)
      · exact Or.inl h.symm
      · exact Or.inr h
    · rintro (h | h)
      · exact Or.inl h.symm
      · exact Or.inr h

theorem nodup_keys_jset {m : JMap} (k v : String) (h : (keys m).Nodup) :
    (keys (jset m k v)).Nodup := by
  by_cases hh : hasKey m k = true
  · rw [keys_jset_of_hasKey hh]
    exact h
  · rw [keys_jset_of_not v (by simpa using hh)]
    rw [List.nodup_append]
    refine ⟨h, List.nodup_singleton _, ?_⟩
    intro a ha hb
    simp only [List.mem_singleton] at hb
    subst hb
    exact (by simpa using hh : ¬ hasKey m a = true) (hasKey_iff_mem_keys.mpr ha)

theorem jdelete_sublist (m : JMap) (k : String) : (jdelete m k).Sublist m := by
  induction m with
  | nil => exact List.Sublist.refl _
  | cons e rest ih =>
    obtain ⟨k0, v0⟩ := e
    simp only [jdelete]
    by_cases hk : k0 = k
    · rw [if_pos hk]
      exact ih.cons _
    · rw [if_neg hk]
      exact ih.cons₂ _

theorem nodup_keys_jdelete {m : JMap} (k : String) (h : (keys m).Nodup) :
    (keys (jdelete m k)).Nodup :=
  h.sublist ((jdelete_sublist m k).map Prod.fst)

theorem map_set_eq_self {m : JMap} {k v : String} (hnd : (keys m).Nodup)
    (h : jget m k = some v) :
    m.map (fun e => if e.1 = k then (k, v) else e) = m := by
  induction m with
  | nil => rfl
  | cons e rest ih =>
    obtain ⟨k0, v0⟩ := e
    have hnd0 : ¬ k0 ∈ keys rest ∧ (keys rest).Nodup := by
      simpa [keys] using hnd
    simp only [jget] at h
    simp only [List.map_cons]
    by_cases hk : k0 = k
    · rw [if_pos hk] at h
      injection h with hv
      subst hk
      subst hv
      rw [if_pos (show ((k0, v0) : String × String).1 = k0 from rfl)]
      congr 1
      apply map_fix
      intro e he
      have hne : ¬ e.1 = k0 := by
        intro hek
        apply hnd0.1
        rw [← hek]
        exact List.mem_map_of_mem Prod.fst he
      rw [if_neg hne]
    · rw [if_neg hk] at h
      rw [if_neg (show ¬ ((k0, v0) : String × String).1 = k from hk)]
      congr 1
      exact ih hnd0.2 h

theorem jset_eq_self {m : JMap} {k v : String} (hnd : (keys m).Nodup)
    (h : jget m k = some v) : jset m k v = m := by
  simp only [jset, if_pos (jget_hasKey h)]
  exact map_set_eq_self hnd h

theorem inv_empty (digest : String → List Nat) : Inv digest emptyIndex :=
  ⟨by intro e he; simp [emptyIndex] at he,
   by intro e he; simp [emptyIndex] at he,
   by simp [emptyIndex, keys],
   by simp [emptyIndex, keys]⟩

theorem inv_addPath {digest : String → List Nat} {nc : NoteCodes}
    (h : Inv digest nc) (p : String) : Inv digest (addPath digest nc p).2 := by
  obtain ⟨hp, hs, hnp, hnh⟩ := h
  refine ⟨?_, ?_, ?_, ?_⟩
  · intro e he
    simp only [addPath] at he
    rcases mem_jset he with he1 | ⟨hm, _⟩
    · subst he1
      rfl
    · exact hp e hm
  · intro e he
    simp only [addPath] at he ⊢
    rcases mem_jset he with he1 | ⟨hm, hne⟩
    · subst he1
      exact jget_jset_self _ _ _
    · have old := hs e hm
      by_cases hep : e.2 = p
      · exfalso
        apply hne
        rw [hep] at old
        have hmem := jget_mem old
        have h3 := hp _ hmem
        simpa using h3
      · rw [jget_jset_ne hep]
        exact old
  · simp only [addPath]
    exact nodup_keys_jset _ _ hnp
  · simp only [addPath]
    exact nodup_keys_jset _ _ hnh

theorem inv_removePath {digest : String → List Nat} {nc : NoteCodes}
    (h : Inv digest nc) (p : String) : Inv digest (removePath nc p) := by
  obtain ⟨hp, hs, hnp, hnh⟩ := h
  rcases hg : jget nc.pathsToHashes p with _ | hash
  · have hrw : removePath nc p = nc := by simp [removePath, hg]
    rw [hrw]
    exact ⟨hp, hs, hnp, hnh⟩
  · by_cases hemp : hash = ""
    · have hrw : removePath nc p = nc := by simp [removePath, hg, hemp]
      rw [hrw]
      exact ⟨hp, hs, hnp, hnh⟩
    · have hrw : removePath nc p =
          { hashesToPaths := jdelete nc.hashesToPaths hash,
            pathsToHashes := jdelete nc.pathsToHashes p } := by
        simp [removePath, hg, hemp]
      rw [hrw]
      refine ⟨?_, ?_, ?_, ?_⟩
      · intro e he
        exact hp e (mem_jdelete he).1
      · intro e he
        obtain ⟨hm, hne⟩ := mem_jdelete he
        have old := hs e hm
        by_cases hep : e.2 = p
        · exfalso
          rw [hep, hg] at old
          injection old with old
          exact hne old.symm
        · rw [jget_jdelete_ne hep]
          exact old
      · exact nodup_keys_jdelete _ hnp
      · exact nodup_keys_jdelete _ hnh

theorem reachable_inv {digest : String → List Nat} {nc : NoteCodes}
    (h : Reachable digest nc) : Inv digest nc := by
  induction h with
  | empty => exact inv_empty digest
  | add nc p _ ih => exact inv_addPath ih p
  | remove nc p _ ih => exact inv_removePath ih p

theorem inv_h2p_hash {digest : String → List Nat} {nc : NoteCodes} (h : Inv digest nc) :
    ∀ e ∈ nc.hashesToPaths, e.1 = hashString digest e.2 := by
  intro e he
  have h1 := h.h2p_sound e he
  have h2 := jget_mem h1
  have h3 := h.p2h_hash _ h2
  simpa using h3

/-- C1 (counterexample): under a colliding digest, addPath "b", then
addPath "a" (whose insert takes over the code entry for "00-00"), then
removePath "b" deletes the code→path entry outright: "a" stays tracked in
path→code under "00-00", yet code→path maps "00-00" to nothing, and no
insert after "a" ever overwrote it. -/
theorem claim1_counterexample :
    jget (removePath (addPath digest0 (addPath digest0 emptyIndex "b").2 "a").2
      "b").pathsToHashes "a" = some "00-00" ∧
    jget (removePath (addPath digest0 (addPath digest0 emptyIndex "b").2 "a").2
      "b").hashesToPaths "00-00" = none := by decide

/-- C1 (amended): after any sequence of addPath/removePath from the empty
index, consistency holds in the reverse direction: every code→path entry
(c, x) has x present in path→code with code exactly c, and c = hash(x).
The claim's forward direction (every tracked path's code is present in
code→path) fails, per claim1_counterexample. -/
theorem claim1_index_consistency {digest : String → List Nat} {nc : NoteCodes}
    (h : Reachable digest nc) :
    ∀ c x, (c, x) ∈ nc.hashesToPaths →
      jget nc.pathsToHashes x = some c ∧ c = hashString digest x := by
  intro c x hm
  have hinv := reachable_inv h
  exact ⟨hinv.h2p_sound (c, x) hm, inv_h2p_hash hinv (c, x) hm⟩

/-- C1 witness: the amended invariant read off a concrete reachable state. -/
theorem claim1_witness :
    jget demoA.pathsToHashes "a" = some "00-00" ∧ "00-00" = hashString digest0 "a" :=
  claim1_index_consistency (Reachable.add emptyIndex "a" Reachable.empty)
    "00-00" "a" (by decide)

/-- C3 (counterexample): in the reachable state where "b" was added first
and the colliding "a" second (so "a" owns code "00-00" in code→path while
"b" is still present in path→code), calling addPath "b" again does not
leave the mappings unchanged: it flips the code→path owner back to "b". -/
theorem claim3_counterexample :
    jget (addPath digest0 (addPath digest0 emptyIndex "b").2 "a").2.pathsToHashes
      "b" = some "00-00" ∧
    jget (addPath digest0 (addPath digest0 emptyIndex "b").2 "a").2.hashesToPaths
      "00-00" = some "a" ∧
    jget (addPath digest0
      (addPath digest0 (addPath digest0 emptyIndex "b").2 "a").2 "b").2.hashesToPaths
      "00-00" = some "b" := by decide

/-- C3 (amended): on a reachable state with path p present in path→code
under code c, addPath p returns that same code c, leaves path→code exactly
unchanged, and re-points the code→path entry for c at p; when p still owns
that entry the whole index is exactly unchanged.  When a later colliding
path owns it, ownership flips back to p (claim3_counterexample), so the
claim's "unchanged even in colliding states" part is false. -/
theorem claim3_addPath_existing {digest : String → List Nat} {nc : NoteCodes}
    (h : Reachable digest nc) (p c : String)
    (hp : jget nc.pathsToHashes p = some c) :
    (addPath digest nc p).1 = c ∧
    (addPath digest nc p).2.pathsToHashes = nc.pathsToHashes ∧
    jget (addPath digest nc p).2.hashesToPaths c = some p ∧
    (jget nc.hashesToPaths c = some p → (addPath digest nc p).2 = nc) := by
  have hinv := reachable_inv h
  have hc : c = hashString digest p := by
    have h1 := hinv.p2h_hash _ (jget_mem hp)
    simpa using h1
  subst hc
  refine ⟨rfl, ?_, ?_, ?_⟩
  · simp only [addPath]
    exact jset_eq_self hinv.p2h_nodup hp
  · simp only [addPath]
    exact jget_jset_self _ _ _
  · intro hown
    simp only [addPath]
    have h1 := jset_eq_self hinv.p2h_nodup hp
    have h2 := jset_eq_self hinv.h2p_nodup hown
    cases nc
    simp_all

/-- C3 witness: at the one-entry reachable state demoA, re-adding "a"
returns the existing code and is a no-op. -/
theorem claim3_witness :
    (addPath digest0 demoA "a").1 = "00-00" ∧ (addPath digest0 demoA "a").2 = demoA := by
  have hr : Reachable digest0 demoA := Reachable.add emptyIndex "a" Reachable.empty
  have h := claim3_addPath_existing hr "a" "00-00" (by decide)
  exact ⟨h.1, h.2.2.2 (by decide)⟩

/-- C5: search formats the query with formatHash and returns exactly the
code→path entries whose code starts with the formatted prefix, in the
map's insertion order; on the fixture of §8, "AB" returns the first two
entries in insertion order, "AB-CD" exactly the first, "ZZ" none. -/
theorem claim5_search :
    (∀ (nc : NoteCodes) (q : String),
      (getSuggestions nc q).map (fun e => (e.hash, e.path)) =
        nc.hashesToPaths.filter (fun e => strStartsWith e.1 (formatHash q))) ∧
    getSuggestions searchDemo "AB" =
      [{ hash := "AB-CD", path := "x" }, { hash := "AB-EF", path := "y" }] ∧
    getSuggestions searchDemo "AB-CD" = [{ hash := "AB-CD", path := "x" }] ∧
    getSuggestions searchDemo "ZZ" = [] := by
  refine ⟨?_, by decide, by decide, by decide⟩
  intro nc q
  simp only [getSuggestions, List.map_map]
  conv_rhs => rw [← List.map_id (nc.hashesToPaths.filter
    (fun e => strStartsWith e.1 (formatHash q)))]
  apply map_congr
  intro a _
  rfl

/-- C6: exact resolution canonicalizes with formatHash, then looks the
result up in code→path; on any reachable state it returns not-found
whenever the canonical code has no entry, and in particular whenever the
formatted query is partial (shorter than the 5 characters every full code
has).  The source method performs no writes, so the index is untouched. -/
theorem claim6_resolve_notfound {digest : String → List Nat} {nc : NoteCodes}
    (h : Reachable digest nc) (s : String)
    (hmiss : (formatHash s).length < 5 ∨ jget nc.hashesToPaths (formatHash s) = none) :
    openNoteForHash nc s = none := by
  have hnone : jget nc.hashesToPaths (formatHash s) = none := by
    rcases hmiss with hlen | hnone
    · rcases hg : jget nc.hashesToPaths (formatHash s) with _ | x
      · rfl
      · exfalso
        have hinv := reachable_inv h
        have hmem := jget_mem hg
        have heq := inv_h2p_hash hinv _ hmem
        have hlen5 := hashString_length digest x
        simp only at heq
        rw [← heq] at hlen5
        omega
    · exact hnone
  simp [openNoteForHash, hnone]

/-- C6 witness: a partial code does not resolve on the reachable demoA. -/
theorem claim6_witness :
    (formatHash "0").length < 5 ∧ openNoteForHash demoA "0" = none :=
  ⟨by decide, claim6_resolve_notfound (Reachable.add emptyIndex "a" Reachable.empty)
    "0" (Or.inl (by decide))⟩

/-- C7 (counterexample): for old = new = "a" the claim fails: after
removePath "a" and addPath "a", the path "a" (= old) is of course still
present in path→code, contradicting "old is no longer present". -/
theorem claim7_counterexample :
    jget (addPath digest0 (removePath demoA "a") "a").2.pathsToHashes "a" =
      some "00-00" := by decide

/-- C7 (amended): for distinct paths old ≠ new, starting from the state in
which old is the only tracked path, removePath old then addPath new leaves
exactly one tracked path, new, mapped to hash(new) in both directions, and
old is no longer present in path→code. -/
theorem claim7_rename (digest : String → List Nat) (old new : String)
    (hne : old ≠ new) :
    (addPath digest (removePath (addPath digest emptyIndex old).2 old) new).2.pathsToHashes
      = [(new, hashString digest new)] ∧
    (addPath digest (removePath (addPath digest emptyIndex old).2 old) new).2.hashesToPaths
      = [(hashString digest new, new)] ∧
    jget (addPath digest (removePath (addPath digest emptyIndex old).2 old) new).2.pathsToHashes
      old = none := by
  have hold : ¬ hashString digest old = "" := hashString_ne_empty digest old
  have hnc : (addPath digest emptyIndex old).2 =
      { hashesToPaths := [(hashString digest old, old)],
        pathsToHashes := [(old, hashString digest old)] } := by
    simp [addPath, emptyIndex, jset, hasKey]
  rw [hnc]
  have hs1 : removePath
      { hashesToPaths := [(hashString digest old, old)],
        pathsToHashes := [(old, hashString digest old)] } old = emptyIndex := by
    simp [removePath, jget, jdelete, hold, emptyIndex]
  rw [hs1]
  have hs2 : (addPath digest emptyIndex new).2 =
      { hashesToPaths := [(hashString digest new, new)],
        pathsToHashes := [(new, hashString digest new)] } := by
    simp [addPath, emptyIndex, jset, hasKey]
  rw [hs2]
  refine ⟨rfl, rfl, ?_⟩
  simp only [jget]
  rw [if_neg (show ¬ new = old from fun hc => hne hc.symm)]

/-- C7 witness: renaming "a" to "b" under the colliding digest stub. -/
theorem claim7_witness :
    (addPath digest0 (removePath (addPath digest0 emptyIndex "a").2 "a") "b").2.pathsToHashes
      = [("b", "00-00")] ∧
    jget (addPath digest0 (removePath (addPath digest0 emptyIndex "a").2 "a") "b").2.pathsToHashes
      "a" = none := by
  have h := claim7_rename digest0 "a" "b" (by decide)
  refine ⟨?_, h.2.2⟩
  rw [h.1]
  decide

end NC
